import Mathlib

/-!
Verification development for the multi-agent orchestration system
(`src/safety/guardrails.py`, `src/tools/handlers.py`, `src/agents/base.py`,
`src/memory/manager.py`, `src/communication/protocol.py`,
`src/orchestration/agent_orchestrator.py`).

Shallow embedding conventions:
* Python dict/JSON payloads become the inductive `Py` value type; dicts are
  association lists in insertion order (Python 3.7+ dicts preserve order).
* Stateful code is modelled by explicit state passing; observable side effects
  (handler invocations, safety checks, message deliveries, event publications)
  are returned as an explicit effect list.
* Python floats only ever carry small exact fractions and timestamps here and
  are only compared/divided, so they are modelled as `ℚ`.
* Wall-clock time is abstract: an invoked handler consumes its declared
  `duration`; `asyncio.wait_for` compares that duration with the deadline.
* `raise`/`except` becomes `Except String`; a caught exception is matched on.
* Nondeterministic fresh values (`uuid4()`, `datetime.now()`) are threaded in
  as parameters.
-/

namespace MA

/-- Python/JSON-like runtime values (message contents, tool arguments, results). -/
inductive Py where
  | none
  | bool (b : Bool)
  | num (q : ℚ)
  | str (s : String)
  | list (xs : List Py)
  | dict (kvs : List (String × Py))

/-- Dictionary lookup, `d.get(k)` on a `Py.dict` association list. -/
def dictGet (kvs : List (String × Py)) (k : String) : Option Py :=
  (kvs.find? (fun kv => kv.1 == k)).map (fun kv => kv.2)

/-- Lowercasing a Python string (`str.lower`), character by character. -/
def pyLower (s : String) : String := ⟨s.data.map Char.toLower⟩

/-- Python substring containment `needle in hay` on character lists. -/
def listContains (needle : List Char) : List Char → Bool
  | [] => needle.isEmpty
  | c :: rest => needle.isPrefixOf (c :: rest) || listContains needle rest

/-- Python substring containment on strings. -/
def strContains (hay needle : String) : Bool := listContains needle.data hay.data

/-! ### SafetyGuardrails (src/safety/guardrails.py)

`check_tool_safety` is regex-free and is embedded exactly.  The other checks
(`check_content_safety`, `check_code_safety`, ...) are regex based; agents
receive the guardrails object by constructor injection, so those checks enter
the agent model as an injected checker function. -/

structure SafetyIssue where
  type : String
  severity : String
  details : String
deriving DecidableEq

/-- Result dict `{safe, issues}`; `check_tool_safety` adds a `reason` key on
its denylisted-tool branch. -/
structure SafetyResult where
  safe : Bool
  reason : Option String := Option.none
  issues : List SafetyIssue
deriving DecidableEq

/-- The `tool_request` dict built by `Agent.use_tool`:
`{"name": tool_name, "args": kwargs, "requester": self.id}`. -/
structure ToolRequest where
  name : String
  args : List (String × Py)
  requester : String

/-- Path fragments denylisted by `check_tool_safety`. -/
def dangerousPathFragments : List String := ["/etc/", "/usr/", "/var/", "~/"]

/-- SafetyGuardrails.check_tool_safety (guardrails.py lines 52-83).
Note the source iterates `for arg in args:` where `args` is the kwargs dict,
so Python yields the argument NAMES (dict keys), which are strings; the
substring scan therefore runs over the keys, and that is what is embedded. -/
def check_tool_safety (req : ToolRequest) : SafetyResult :=
  if req.name = "system_command" ∨ req.name = "file_write" then
    { safe := false
      reason := Option.some "insufficient_permissions"
      issues := [{ type := "unsafe_tool", severity := "critical"
                   details := "Tool " ++ req.name ++ " requires elevated permissions" }] }
  else
    let issues := (req.args.map Prod.fst).filterMap (fun key =>
      if dangerousPathFragments.any (fun d => strContains (pyLower key) d) then
        Option.some { type := "unsafe_path", severity := "critical"
                      details := "Potentially dangerous path: " ++ key }
      else Option.none)
    { safe := issues.isEmpty, issues := issues }

/-! ### ToolRegistry (src/tools/handlers.py) -/

/-- A registered tool: `self._tools[name]` entry.  `isAsync` is
`inspect.iscoroutinefunction(func)`, `params` maps parameter name to its
`required` flag (from signature introspection), `timeout` is the registered
per-tool timeout (default 30).  `duration` is the abstract wall-clock time an
invocation of the handler takes; `behavior` is the handler itself, returning a
value or raising. -/
structure ToolDef where
  isAsync : Bool
  duration : ℚ
  behavior : List (String × Py) → Except String Py
  params : List (String × Bool)
  timeout : ℚ

/-- The registry mapping `name → ToolDef` (a Python dict). -/
abbrev Registry := List (String × ToolDef)

/-- Dict lookup in the registry. -/
def regGet (reg : Registry) (name : String) : Option ToolDef :=
  (reg.find? (fun kv => kv.1 == name)).map (fun kv => kv.2)

/-- The result dict of a completed `ToolRegistry.execute` call:
`{"success": True, "result": r, "execution_time": t}` or
`{"success": False, "error": e, "execution_time": t}`. -/
inductive ExecResult where
  | ok (result : Py) (execution_time : ℚ)
  | err (error : String) (execution_time : ℚ)

/-- Observable side effects of the modelled operations. -/
inductive Eff where
  | handlerInvoked (name : String) (args : List (String × Py))
  | toolSafetyChecked (name : String) (safe : Bool)
  | interventionRequested (kind : String)
  | routeDelivered (agentId : String)
  | subscriberCalled (event : String) (callbackId : String)

/-- First missing required parameter, if any (the validation loop in
`ToolRegistry.execute` raises on the first such parameter). -/
def firstMissingParam (params : List (String × Bool)) (kwargs : List (String × Py)) :
    Option (String × Bool) :=
  params.find? (fun p => p.2 && !(kwargs.any (fun kv => kv.1 == p.1)))

/-- The `ValueError` message `ToolRegistry.execute` raises before running any
handler, if validation fails: unknown tool name, or a missing required
parameter.  `Option.none` means execution proceeds. -/
def executeValueError (reg : Registry) (name : String) (kwargs : List (String × Py)) :
    Option String :=
  match regGet reg name with
  | Option.none => Option.some ("Tool " ++ name ++ " not found")
  | Option.some tool =>
    (firstMissingParam tool.params kwargs).map
      (fun p => "Required parameter " ++ p.1 ++ " not provided for tool " ++ name)

/-- ToolRegistry.execute (handlers.py lines 60-109).

* Unknown tool / missing required parameter: raises `ValueError`
  (`Except.error`) — these checks sit before the `try` block, so they are NOT
  converted into a result dict.
* Async handler (`inspect.iscoroutinefunction`): run as a task under
  `asyncio.wait_for(task, timeout)`; if the handler outlives the timeout the
  task is cancelled and `{"success": False, "error": "timeout"}` is returned
  with the elapsed time (≈ the timeout); the cancelled handler's own outcome
  is discarded.
* Sync handler: run via `loop.run_in_executor` — with NO timeout around it, so
  it always runs to completion.
* A handler exception is caught and returned as `{"success": False, "error": e}`. -/
def tr_execute (reg : Registry) (name : String) (kwargs : List (String × Py)) :
    Except String ExecResult × List Eff :=
  match regGet reg name with
  | Option.none => (Except.error ("Tool " ++ name ++ " not found"), [])
  | Option.some tool =>
    match firstMissingParam tool.params kwargs with
    | Option.some p =>
      (Except.error ("Required parameter " ++ p.1 ++ " not provided for tool " ++ name), [])
    | Option.none =>
      let eff := [Eff.handlerInvoked name kwargs]
      if tool.isAsync = true ∧ tool.timeout < tool.duration then
        (Except.ok (ExecResult.err "timeout" tool.timeout), eff)
      else
        match tool.behavior kwargs with
        | Except.ok v => (Except.ok (ExecResult.ok v tool.duration), eff)
        | Except.error e => (Except.ok (ExecResult.err e tool.duration), eff)

/-- ToolRegistry.validate_tool_request (handlers.py lines 111-141), with the
`"name"` field present (as built by `AgentOrchestrator.handle_tool_request`). -/
inductive ValidationResult where
  | valid
  | invalid (error : String)
deriving DecidableEq

/-- ToolRegistry.validate_tool_request on `{"name": name, "args": args}`. -/
def validate_tool_request (reg : Registry) (name : String) (args : List (String × Py)) :
    ValidationResult :=
  match regGet reg name with
  | Option.none => ValidationResult.invalid ("Tool not found: " ++ name)
  | Option.some tool =>
    match firstMissingParam tool.params args with
    | Option.some p => ValidationResult.invalid ("Missing required parameter: " ++ p.1)
    | Option.none => ValidationResult.valid

/-! ### Agent (src/agents/base.py) -/

/-- Mutable agent state touched by `process_message` (`self.status`,
`self._memory` with its ring-buffer bound `self._memory_size`). -/
structure AgentState where
  status : String
  memory : List Py
  memory_size : Nat

/-- Agent._add_to_memory (base.py lines 114-118): append, then `pop(0)` once
when the size limit is exceeded. -/
def add_to_memory (st : AgentState) (entry : Py) : AgentState :=
  let m := st.memory ++ [entry]
  { st with memory := if st.memory_size < m.length then m.drop 1 else m }

/-- The value `Agent.process_message` returns. -/
inductive ProcessResult where
  | resp (r : Py)
  | safetyFailed (issues : List SafetyIssue)
  | errored (msg : String)

/-- The inbound content `message.get("content", "")` an agent safety-checks. -/
def msgContent (msg : Py) : Py :=
  (dictGet (match msg with | Py.dict kvs => kvs | _ => []) "content").getD (Py.str "")

/-- Agent.process_message (base.py lines 40-81).

`guard` is the injected `SafetyGuardrails.check_content_safety` (regex based,
hence abstract here), applied to `message.get("content", "")`; `gen` is the
role-specific `_generate_response` (raises `NotImplementedError` on the base
class), with a raise modelled as `Except.error`; `now` stands for the
`datetime.now().isoformat()` stamps.  Control flow:
* set `status = "processing"`;
* if the safety check fails, return the rejection dict immediately — note no
  further status assignment happens on this path;
* else append the received entry, generate, append the sent entry, set
  `status = "idle"` and return the response;
* any exception from generation is caught, sets `status = "error"` and
  returns `{"success": False, "error": str(e)}`. -/
def process_message (guard : Py → SafetyResult) (gen : Py → Except String Py)
    (now : String) (st : AgentState) (msg : Py) : AgentState × ProcessResult :=
  let st1 := { st with status := "processing" }
  let sc := guard (msgContent msg)
  if sc.safe then
    let st2 := add_to_memory st1 (Py.dict
      [("type", Py.str "received"), ("content", msg), ("timestamp", Py.str now)])
    match gen msg with
    | Except.ok r =>
      let st3 := add_to_memory st2 (Py.dict
        [("type", Py.str "sent"), ("content", r), ("timestamp", Py.str now)])
      ({ st3 with status := "idle" }, ProcessResult.resp r)
    | Except.error e => ({ st2 with status := "error" }, ProcessResult.errored e)
  else
    (st1, ProcessResult.safetyFailed sc.issues)

/-- Status component of the behaviour `process_message` actually exhibits,
written from the amended claim: `idle` after a generated response, `error`
after an unhandled generation exception, and — on a safety rejection — the
status is left at `processing`. -/
def statusAfterSpec (guard : Py → SafetyResult) (gen : Py → Except String Py) (msg : Py) :
    String :=
  if (guard (msgContent msg)).safe then
    match gen msg with
    | Except.ok _ => "idle"
    | Except.error _ => "error"
  else "processing"

/-- Result component written from the amended claim: a safety rejection yields
`{"success": False, "error": "Safety check failed", "issues": issues}` (not a
transition to `error`); otherwise the generated response or the caught
exception message. -/
def resultAfterSpec (guard : Py → SafetyResult) (gen : Py → Except String Py) (msg : Py) :
    ProcessResult :=
  if (guard (msgContent msg)).safe then
    match gen msg with
    | Except.ok r => ProcessResult.resp r
    | Except.error e => ProcessResult.errored e
  else ProcessResult.safetyFailed (guard (msgContent msg)).issues

/-- The value `Agent.use_tool` returns. -/
inductive UseToolResult where
  | missingCapability (msg : String)
  | safetyRejected (issues : List SafetyIssue)
  | executed (r : Except String ExecResult)

/-- Agent.use_tool (base.py lines 88-112): capability gate, then
`check_tool_safety` on the request dict, then `ToolRegistry.execute`.  A
`ValueError` raised by `execute` propagates (`Except.error` in `executed`). -/
def agent_use_tool (capabilities : List String) (agentId : String) (reg : Registry)
    (name : String) (kwargs : List (String × Py)) : UseToolResult × List Eff :=
  if (capabilities.contains name) = false then
    (UseToolResult.missingCapability ("Agent does not have capability: " ++ name), [])
  else
    let sc := check_tool_safety { name := name, args := kwargs, requester := agentId }
    if sc.safe then
      let (r, eff) := tr_execute reg name kwargs
      (UseToolResult.executed r, Eff.toolSafetyChecked name sc.safe :: eff)
    else
      (UseToolResult.safetyRejected sc.issues, [Eff.toolSafetyChecked name sc.safe])

/-- Agent.get_memory (base.py lines 120-124): `if limit:` — a zero limit is
falsy, so the whole memory is returned; a positive limit returns the slice
`self._memory[-limit:]`. -/
def agent_get_memory (st : AgentState) (limit : Nat) : List Py :=
  if limit ≠ 0 then st.memory.drop (st.memory.length - limit) else st.memory

/-! ### Memory (src/memory/manager.py) -/

/-- MemoryEntry (manager.py lines 11-26).  `timestamp` is an abstract
`datetime` instant; `isoformat` renders it (injectively) as a string. -/
structure MemoryEntry where
  id : String
  content : Py
  timestamp : Nat
  metadata : Py
  memory_type : String
  importance : ℚ

/-- Abstract `datetime.isoformat`: any injective rendering of instants. -/
def isoformat (t : Nat) : String := toString t

/-- MemoryEntry.to_dict (manager.py lines 21-26): `asdict(self)` in dataclass
field order with the `timestamp` value replaced by its isoformat string. -/
def entryKVs (e : MemoryEntry) : List (String × Py) :=
  [("id", Py.str e.id), ("content", e.content),
   ("timestamp", Py.str (isoformat e.timestamp)), ("metadata", e.metadata),
   ("memory_type", Py.str e.memory_type), ("importance", Py.num e.importance)]

/-- MemoryEntry.to_dict as a `Py` value. -/
def entry_to_dict (e : MemoryEntry) : Py := Py.dict (entryKVs e)

/-- Comparison used by `WorkingMemory.add`'s sort key (`x.importance`). -/
def impLe (a b : MemoryEntry) : Prop := a.importance ≤ b.importance

instance : DecidableRel impLe :=
  fun a b => (inferInstance : Decidable (a.importance ≤ b.importance))

instance : IsTotal MemoryEntry impLe := ⟨fun a b => le_total a.importance b.importance⟩

instance : IsTrans MemoryEntry impLe := ⟨fun _ _ _ h h2 => le_trans h h2⟩

/-- WorkingMemory.add (manager.py lines 35-41): append; when over capacity,
stable-sort ascending by importance (`list.sort` with key) and keep the slice
`self._memory[-self._capacity:]`.  `List.insertionSort` is a stable sort, like
Python's.  Note the Python slice: for a positive capacity it keeps the last
`capacity` elements, but for capacity 0 the slice `[-0:]` is `[0:]` — the
WHOLE list — so nothing is ever evicted. -/
def wm_add (capacity : Nat) (mem : List MemoryEntry) (e : MemoryEntry) :
    List MemoryEntry :=
  let m := mem ++ [e]
  if capacity < m.length then
    let s := m.insertionSort impLe
    if capacity = 0 then s else s.drop (s.length - capacity)
  else m

/-- A run of `WorkingMemory.add` calls from an empty memory. -/
def wm_run (capacity : Nat) (es : List MemoryEntry) : List MemoryEntry :=
  es.foldl (wm_add capacity) []

/-- The entry added at (abstract) time `i` with importance `p`. -/
def stampEntry (i : Nat) (p : ℚ) : MemoryEntry :=
  { id := toString i, content := Py.none, timestamp := i, metadata := Py.none
    memory_type := "conversation", importance := p }

/-- Entries tagged with consecutive timestamps `i, i+1, ...` carrying the
given importances: the shape of an arbitrary add sequence, with recency
recorded in the timestamp. -/
def stampedFrom (i : Nat) : List ℚ → List MemoryEntry
  | [] => []
  | p :: ps => stampEntry i p :: stampedFrom (i + 1) ps

/-- An add sequence of the given importances, stamped from time 0. -/
def stamped (ps : List ℚ) : List MemoryEntry := stampedFrom 0 ps

/-- Between two entries in list order: equal importance forces the earlier one
to be strictly older.  This is exactly the configuration Python's stable sort
preserves, and an appended fresh entry maintains it. -/
def cohRel (a b : MemoryEntry) : Prop :=
  a.importance = b.importance → a.timestamp < b.timestamp

/-- Every pair in list order satisfies `cohRel`. -/
def Coherent (l : List MemoryEntry) : Prop := l.Pairwise cohRel

/-- All timestamps in the list are distinct (pairwise). -/
def TsDistinct (l : List MemoryEntry) : Prop :=
  l.Pairwise (fun a b => a.timestamp ≠ b.timestamp)

/-- Strict priority order of the eviction policy: `b` outranks `a` when it has
strictly higher importance, or equal importance and is more recent. -/
def lexLt (a b : MemoryEntry) : Prop :=
  a.importance < b.importance ∨ (a.importance = b.importance ∧ a.timestamp < b.timestamp)

instance : DecidableRel lexLt := fun a b =>
  (inferInstance : Decidable (a.importance < b.importance ∨
    (a.importance = b.importance ∧ a.timestamp < b.timestamp)))

/-- Number of entries in `l` that outrank `e`. -/
def rank (l : List MemoryEntry) (e : MemoryEntry) : Nat :=
  l.countP (fun y => decide (lexLt e y))

/-- Invariant tying the retained working memory `st` to the full history of
added entries `pre`: the size is `min |pre| cap`, exactly the entries with
fewer than `cap` higher-priority competitors are retained, and the list is
coherent with distinct timestamps. -/
structure WMInv (cap : Nat) (pre st : List MemoryEntry) : Prop where
  len : st.length = min pre.length cap
  mem : ∀ e, e ∈ st ↔ e ∈ pre ∧ rank pre e < cap
  coh : Coherent st
  tsd : TsDistinct st

/-- WorkingMemory.get_recent (manager.py lines 43-48): a stable sort by
timestamp descending (`sorted(..., reverse=True)` preserves the order of
equal keys), then `entries[:limit]` — where a zero limit is falsy and yields
the whole sorted list. -/
def wm_get_recent (mem : List MemoryEntry) (limit : Nat) : List MemoryEntry :=
  let entries := mem.insertionSort (fun a b => b.timestamp ≤ a.timestamp)
  if limit ≠ 0 then entries.take limit else entries

/-- Index record kept by LongTermMemory (manager.py lines 97-103). -/
structure IndexRecord where
  id : String
  memory_type : String
  timestamp : String
  importance : ℚ
  metadata : Py

/-- LongTermMemory state: the parsed JSON contents of `<id>.json` files and of
`index.json`.  Per spec §6 the persistence adapter is exact on JSON values, so
files are carried as parsed `Py` values. -/
structure LTMState where
  files : List (String × Py)
  index : List (String × IndexRecord)

/-- Dict/file-system update: replace the value under an existing key in place,
else append the new key. -/
def setKV {β : Type} (m : List (String × β)) (k : String) (v : β) : List (String × β) :=
  if m.any (fun kv => kv.1 == k) then
    m.map (fun kv => if kv.1 == k then (k, v) else kv)
  else m ++ [(k, v)]

/-- Assoc lookup (dict `get` / file existence + read). -/
def getKV {β : Type} (m : List (String × β)) (k : String) : Option β :=
  (m.find? (fun kv => kv.1 == k)).map (fun kv => kv.2)

/-- LongTermMemory.add (manager.py lines 89-104): dump `entry.to_dict()` to
`<id>.json`, then write the index record and save the index. -/
def ltm_add (st : LTMState) (e : MemoryEntry) : LTMState :=
  { files := setKV st.files e.id (entry_to_dict e)
    index := setKV st.index e.id
      { id := e.id, memory_type := e.memory_type, timestamp := isoformat e.timestamp
        importance := e.importance, metadata := e.metadata } }

/-- LongTermMemory.get (manager.py lines 106-116): `None` unless the id is in
the index AND the backing file exists; otherwise the parsed file contents. -/
def ltm_get (st : LTMState) (id : String) : Option Py :=
  match getKV st.index id with
  | Option.none => Option.none
  | Option.some _ => getKV st.files id

/-! ### Communication protocol (src/communication/protocol.py) -/

inductive MessageType where
  | direct | broadcast | system | event | tool_request | tool_response
deriving DecidableEq

/-- Message (protocol.py lines 18-47).  `id` is the `uuid4()` value chosen at
construction, `timestamp` the abstract `datetime.now()` instant. -/
structure Message where
  id : String
  content : Py
  type : MessageType
  sender_id : String
  recipient_id : Option String
  metadata : List (String × Py)
  timestamp : Nat

/-- MessageRouter state: the registered routes (callbacks keyed by agent id —
callbacks are identified by the agent id they were registered under), the
EventBus subscriber table, and the bounded history. -/
structure RouterState where
  routes : List String
  subscribers : List (String × List String)
  history : List Message
  history_limit : Nat

/-- MessageRouter._add_to_history (protocol.py lines 165-169): append, then
`pop(0)` once when over the limit. -/
def push_history (h : List Message) (limit : Nat) (m : Message) : List Message :=
  let h2 := h ++ [m]
  if limit < h2.length then h2.drop 1 else h2

/-- EventBus.publish (protocol.py lines 57-67): call every subscriber of the
event in subscription order; exceptions inside callbacks are caught, so every
subscriber is reached. -/
def bus_publish (subs : List (String × List String)) (event : String) : List Eff :=
  match getKV subs event with
  | Option.none => []
  | Option.some cbs => cbs.map (fun c => Eff.subscriberCalled event c)

/-- Python truthiness test `not message.recipient_id`: `None` and the empty
string are falsy. -/
def recipientFalsy : Option String → Bool
  | Option.none => true
  | Option.some s => s == ""

/-- MessageRouter.route_message (protocol.py lines 89-108) together with its
type-specific handlers (lines 119-163).  Every message is first appended to
the bounded history.  `DIRECT` with a falsy or unregistered recipient logs an
error and delivers to nobody; the outer `try/except` means no exception ever
reaches the caller.  Delivered callbacks' return values are discarded (the
`await callback(message)` result is dropped), which is why effects carry only
the fact of delivery.  The `EVENT` branch republishes under
`metadata["event_type"]` (string event names; a falsy one is dropped);
`SYSTEM` broadcasts and also publishes the `"system"` event; other types only
log a warning. -/
def route_message (rt : RouterState) (msg : Message) : RouterState × List Eff :=
  let rt2 := { rt with history := push_history rt.history rt.history_limit msg }
  match msg.type with
  | MessageType.broadcast => (rt2, rt.routes.map Eff.routeDelivered)
  | MessageType.direct =>
    if recipientFalsy msg.recipient_id then (rt2, [])
    else
      match msg.recipient_id with
      | Option.some r =>
        if rt.routes.contains r then (rt2, [Eff.routeDelivered r]) else (rt2, [])
      | Option.none => (rt2, [])
  | MessageType.event =>
    (rt2,
      match dictGet msg.metadata "event_type" with
      | Option.some (Py.str s) => if s == "" then [] else bus_publish rt.subscribers s
      | _ => [])
  | MessageType.system =>
    (rt2, rt.routes.map Eff.routeDelivered ++ bus_publish rt.subscribers "system")
  | _ => (rt2, [])

/-- MessageRouter.get_history (protocol.py lines 171-175): `if limit:` — zero
is falsy and returns the whole history; a positive limit returns
`self._message_history[-limit:]`. -/
def get_history (h : List Message) (limit : Nat) : List Message :=
  if limit ≠ 0 then h.drop (h.length - limit) else h

/-! ### Orchestrator (src/orchestration/agent_orchestrator.py) -/

/-- The configuration fields the tool path reads. -/
structure OrchConfig where
  high_risk_tools : List String
  tool_timeouts : List (String × ℚ)

/-- Outcome of `AgentOrchestrator.execute_tool_safely`. -/
inductive OrchToolResult where
  | ok (result : ExecResult) (execution_time : ℚ)
  | timedOut
  | err (msg : String)

/-- The elapsed time of a `ToolRegistry.execute` call in the abstract time
model: the `execution_time` it reports. -/
def elapsed : ExecResult → ℚ
  | ExecResult.ok _ t => t
  | ExecResult.err _ t => t

/-- AgentOrchestrator.execute_tool_safely (agent_orchestrator.py lines
271-313).  Despite its name and its docstring ("Execute tool with safety
checks and resource monitoring"), the body contains NO call to the guardrails:
it samples (static) resource usage, then runs `ToolRegistry.execute` under an
outer `asyncio.wait_for` with the configured per-tool timeout (default 30).
A registry `ValueError` is caught by `except Exception`; an outer deadline
expiry yields `{"success": False, "error": "Tool execution timed out"}`; a
completed inner call is wrapped as `{"success": True, "result": result,
"metadata": {...}}` even when the inner result dict itself reports failure. -/
def execute_tool_safely (cfg : OrchConfig) (reg : Registry) (name : String)
    (params : List (String × Py)) : OrchToolResult × List Eff :=
  let timeout := (getKV cfg.tool_timeouts name).getD 30
  let (res, eff) := tr_execute reg name params
  match res with
  | Except.error e => (OrchToolResult.err e, eff)
  | Except.ok r =>
    if timeout < elapsed r then (OrchToolResult.timedOut, eff)
    else (OrchToolResult.ok r (elapsed r), eff)

/-- Outcome of `AgentOrchestrator.handle_tool_request`. -/
inductive HandleToolResult where
  | validationFailed (reason : String)
  | rejectedByHuman
  | res (r : OrchToolResult)

/-- AgentOrchestrator.handle_tool_request (lines 187-230): validate via the
registry; for tools in `config["high_risk_tools"]` request human intervention
(`_request_intervention` auto-approves with a warning, lines 348-360, so the
rejection branch is unreachable); then `execute_tool_safely`.  No guardrails
check occurs anywhere on this path. -/
def handle_tool_request (cfg : OrchConfig) (reg : Registry) (name : String)
    (params : List (String × Py)) : HandleToolResult × List Eff :=
  match validate_tool_request reg name params with
  | ValidationResult.invalid e =>
    (HandleToolResult.validationFailed ("Tool validation failed: " ++ e), [])
  | ValidationResult.valid =>
    let ieff := if cfg.high_risk_tools.contains name then
      [Eff.interventionRequested "tool_usage"] else []
    let (r, eff) := execute_tool_safely cfg reg name params
    (HandleToolResult.res r, ieff ++ eff)

/-- The static sample `_get_resource_usage` returns (lines 362-370). -/
def get_resource_usage : List (String × ℚ) :=
  [("memory", 50), ("cpu", 30), ("network", 20)]

/-- AgentOrchestrator._check_resource_limits (lines 372-378):
`any(usage[resource] > limit for resource, limit in limits.items())` — the
generator short-circuits on the first exceeded limit, and a limit keyed by a
resource missing from the usage dict raises `KeyError`. -/
def check_resource_limits : List (String × ℚ) → Except String Bool
  | [] => Except.ok false
  | (r, lim) :: rest =>
    match getKV get_resource_usage r with
    | Option.none => Except.error ("KeyError: " ++ r)
    | Option.some u => if lim < u then Except.ok true else check_resource_limits rest

/-- Outcome of `AgentOrchestrator.process_with_agent`. -/
inductive PWAResult where
  | ok (response : Py)
  | limited
  | err (msg : String)

/-- AgentOrchestrator.process_with_agent (lines 146-185).  Samples resource
usage and rejects when limits are exceeded (a `KeyError` from the check is
caught by the {except} block); otherwise builds the DIRECT message
`Message(content={"content": message}, DIRECT, "user", agent.id)`, routes it —
the registered route callback runs `agent.process_message(msg.content)` and
DISCARDS its return value (protocol.py line 143) — and returns
`{"success": True, "response": msg.content}`.  `agentResponse` stands for
whatever the routed agent's `process_message` returns; it appears nowhere in
the outcome. -/
def process_with_agent (limits : List (String × ℚ)) (rt : RouterState)
    (agentId : String) (agentResponse : Py) (message : String) (msgId : String)
    (now : Nat) : RouterState × List Eff × PWAResult :=
  match check_resource_limits limits with
  | Except.error e => (rt, [], PWAResult.err e)
  | Except.ok true => (rt, [], PWAResult.limited)
  | Except.ok false =>
    let msg : Message :=
      { id := msgId, content := Py.dict [("content", Py.str message)]
        type := MessageType.direct, sender_id := "user"
        recipient_id := Option.some agentId, metadata := [], timestamp := now }
    let (rt2, eff) := route_message rt msg
    (rt2, eff, PWAResult.ok msg.content)

/-- The specialized agent classes an orchestrator instantiates
(`CodeAgent`, `ResearchAgent`, `TaskAgent` in src/agents/specialized.py);
`isinstance` checks in `_route_message` discriminate on exactly these. -/
inductive AgentKind where
  | code | research | task
deriving DecidableEq

/-- The hardwired routing keyword table (lines 319-323), in dict insertion
order. -/
def routing_keywords : List (AgentKind × List String) :=
  [(AgentKind.code, ["code", "function", "bug", "error", "programming"]),
   (AgentKind.research, ["research", "information", "find", "search"]),
   (AgentKind.task, ["task", "plan", "coordinate", "manage"])]

/-- The score of one keyword set (line 327-328):
`sum(word.lower() in message.lower() for word in words) / len(words)`. -/
def keyword_matches (message : String) (words : List String) : Nat :=
  (words.filter (fun w => strContains (pyLower message) (pyLower w))).length

/-- Score as the Python float division `matches / len(words)`. -/
def keyword_score (message : String) (words : List String) : ℚ :=
  (keyword_matches message words : ℚ) / (words.length : ℚ)

/-- Dict key rendering of an agent kind (`best_type[0]` in the reason
f-string). -/
def kindName : AgentKind → String
  | AgentKind.code => "code"
  | AgentKind.research => "research"
  | AgentKind.task => "task"

/-- `max(scores.items(), key=lambda x: x[1])`: scan in insertion order,
keeping the current item unless a strictly larger score appears — so the
FIRST maximal item wins. -/
def best_type (message : String) : AgentKind × ℚ :=
  let scores := routing_keywords.map (fun kw => (kw.1, keyword_score message kw.2))
  match scores with
  | [] => (AgentKind.task, 0)
  | s :: rest => rest.foldl (fun b x => if b.2 < x.2 then x else b) s

/-- The routing decision dict `{agent_id, confidence, reason}`. -/
structure RoutingDecision where
  agent_id : String
  confidence : ℚ
  reason : String
deriving DecidableEq

/-- AgentOrchestrator._route_message (lines 315-346).  After scoring, the
first registered agent that is an instance of the best type is chosen; if no
agent of that type exists the task agent is the fallback with confidence 0.5
(`self._task_agent` being `None` there would raise `AttributeError`). -/
def orch_route_message (roster : List (String × AgentKind)) (taskAgent : Option String)
    (message : String) : Except String RoutingDecision :=
  let bt := best_type message
  match roster.find? (fun a => a.2 == bt.1) with
  | Option.some a =>
    Except.ok { agent_id := a.1, confidence := bt.2
                reason := "Matched keywords for " ++ kindName bt.1 ++ " agent" }
  | Option.none =>
    match taskAgent with
    | Option.some tid =>
      Except.ok { agent_id := tid, confidence := (1 : ℚ) / 2
                  reason := "No clear match, defaulting to task agent" }
    | Option.none => Except.error "AttributeError"

/-! ### Concrete fixtures used by witnesses and counterexamples -/

/-- An async echo-like tool with one required parameter. -/
def echoTool : ToolDef :=
  { isAsync := true, duration := 1, behavior := fun _ => Except.ok (Py.str "hi")
    params := [("message", true)], timeout := 30 }

/-- A SYNC tool whose handler takes 10 abstract seconds against a 1-second
registered timeout. -/
def slowSyncTool : ToolDef :=
  { isAsync := false, duration := 10, behavior := fun _ => Except.ok (Py.str "done")
    params := [], timeout := 1 }

/-- An ASYNC tool whose handler takes 10 abstract seconds against a 1-second
registered timeout. -/
def slowAsyncTool : ToolDef :=
  { isAsync := true, duration := 10, behavior := fun _ => Except.ok (Py.str "done")
    params := [], timeout := 1 }

/-- A registered `file_write` tool — a name `check_tool_safety` denylists. -/
def fileWriteTool : ToolDef :=
  { isAsync := false, duration := 1, behavior := fun _ => Except.ok (Py.str "written")
    params := [("path", true)], timeout := 30 }

def regEcho : Registry := [("echo", echoTool)]

def regSlowSync : Registry := [("slow_tool", slowSyncTool)]

def regSlowAsync : Registry := [("slow_async", slowAsyncTool)]

def regFW : Registry := [("file_write", fileWriteTool)]

/-- Arguments for the `file_write` request. -/
def fwArgs : List (String × Py) := [("path", Py.str "notes.txt")]

/-- Orchestrator config with no high-risk tools and no per-tool timeouts. -/
def cfg0 : OrchConfig := { high_risk_tools := [], tool_timeouts := [] }

/-- The issue `check_tool_safety` raises for the denylisted `file_write`. -/
def fwIssue : SafetyIssue :=
  { type := "unsafe_tool", severity := "critical"
    details := "Tool file_write requires elevated permissions" }

/-- A checker outcome standing for `check_content_safety` on flagged content
(e.g. the PII input of spec §8.3, which yields `safe = false` with an issue). -/
def rejectAllGuard : Py → SafetyResult := fun _ =>
  { safe := false
    issues := [{ type := "pii_detected", severity := "high", details := "123-45-6789" }] }

/-- `_generate_response` of the base class: it always raises
`NotImplementedError` (base.py line 86). -/
def notImplementedGen : Py → Except String Py := fun _ => Except.error "NotImplementedError"

/-- A router with one registered route and an empty history. -/
def rtW : RouterState :=
  { routes := ["agent-a"], subscribers := [], history := [], history_limit := 1000 }

/-- A DIRECT message to an unregistered recipient. -/
def msgW : Message :=
  { id := "m1", content := Py.str "x", type := MessageType.direct, sender_id := "user"
    recipient_id := Option.some "ghost", metadata := [], timestamp := 0 }

/-- Resource limits generous enough for the static usage sample. -/
def limitsW : List (String × ℚ) := [("memory", 80), ("cpu", 80), ("network", 80)]

/-- Two stored entries for the C10 witness. -/
def wmEntryA : MemoryEntry :=
  { id := "a", content := Py.str "alpha", timestamp := 1, metadata := Py.none
    memory_type := "conversation", importance := 1 }

/-- Second stored entry for the C10 witness. -/
def wmEntryB : MemoryEntry :=
  { id := "b", content := Py.str "beta", timestamp := 2, metadata := Py.none
    memory_type := "conversation", importance := 2 }

/-- The end-to-end user message of spec §8, property 6. -/
def fibMsg : String := "Write a function to calculate fibonacci"

/-- A roster with one agent of each specialized class, in registration order. -/
def roster3 : List (String × AgentKind) :=
  [("agent-code", AgentKind.code), ("agent-research", AgentKind.research),
   ("agent-task", AgentKind.task)]

/-! ### C4 — validation failures in `ToolRegistry.execute` -/

/-- C4 counterexample.  The claim says `ToolRegistry.execute` on an
unregistered tool name returns a tagged `{success: false, ...}` failure
"rather than raising an exception across the component boundary"; in fact the
unknown-name check sits before the `try` block and raises `ValueError` — here
the call evaluates to `Except.error`, not to a result dict, refuting the
claim at the concrete input `execute("unknown_tool")` against a registry
holding only `echo`. -/
theorem c4_counterexample :
    (tr_execute regEcho "unknown_tool" []).1 = Except.error "Tool unknown_tool not found" :=
  rfl

/-- C4 (amended): whenever validation fails — unknown tool name or a missing
required parameter, exactly the cases where `executeValueError` produces a
message — `ToolRegistry.execute` raises that `ValueError` (`Except.error`)
and invokes no handler (the effect list is empty). -/
theorem c4_validation_raises_and_never_invokes (reg : Registry) (name : String)
    (kwargs : List (String × Py)) (err : String)
    (h : executeValueError reg name kwargs = Option.some err) :
    tr_execute reg name kwargs = (Except.error err, []) := by
  unfold executeValueError at h
  unfold tr_execute
  cases hreg : regGet reg name with
  | none =>
    simp only [hreg] at h ⊢
    simp only [Option.some.injEq] at h
    rw [h]
  | some tool =>
    simp only [hreg] at h ⊢
    cases hp : firstMissingParam tool.params kwargs with
    | none => simp [hp] at h
    | some p =>
      simp only [hp, Option.map_some', Option.some.injEq] at h
      simp only [hp]
      rw [h]

/-- C4 witness: the amended theorem applied to the unknown-tool input. -/
theorem c4_witness :
    executeValueError regEcho "unknown_tool" [] = Option.some "Tool unknown_tool not found" ∧
    tr_execute regEcho "unknown_tool" [] =
      (Except.error "Tool unknown_tool not found", []) :=
  ⟨rfl, c4_validation_raises_and_never_invokes regEcho "unknown_tool" [] _ rfl⟩

/-! ### C2 — the tool timeout only governs async handlers -/

/-- C2 counterexample.  The claim quantifies over sync AND async handlers; a
sync handler is run via `loop.run_in_executor` with no deadline around it, so
`slow_tool` (duration 10, timeout 1) runs to completion and `execute` returns
its success dict after 10 abstract seconds instead of the claimed
`{success: false, error: "timeout"}`. -/
theorem c2_counterexample :
    (1 : ℚ) < 10 ∧
    tr_execute regSlowSync "slow_tool" [] =
      (Except.ok (ExecResult.ok (Py.str "done") 10), [Eff.handlerInvoked "slow_tool" []]) :=
  ⟨by decide, rfl⟩

/-- C2 (amended): for every registered ASYNC handler whose duration exceeds
the tool's configured timeout, `ToolRegistry.execute` returns
`{success: false, error: "timeout", execution_time}` with the elapsed time
equal to the deadline; the right-hand side does not mention `tool.behavior`
at all, so no result of the cancelled invocation is observable in the
outcome.  Sync handlers are exempt (see the counterexample): they run in an
executor without a deadline. -/
theorem c2_async_timeout (reg : Registry) (name : String) (tool : ToolDef)
    (kwargs : List (String × Py))
    (hreg : regGet reg name = Option.some tool)
    (hasync : tool.isAsync = true)
    (hparams : firstMissingParam tool.params kwargs = Option.none)
    (hslow : tool.timeout < tool.duration) :
    tr_execute reg name kwargs =
      (Except.ok (ExecResult.err "timeout" tool.timeout), [Eff.handlerInvoked name kwargs]) := by
  unfold tr_execute
  simp only [hreg, hparams]
  rw [if_pos ⟨hasync, hslow⟩]

/-- C2 witness: the amended theorem applied to the slow async tool. -/
theorem c2_witness :
    regGet regSlowAsync "slow_async" = Option.some slowAsyncTool ∧
    slowAsyncTool.isAsync = true ∧
    firstMissingParam slowAsyncTool.params [] = Option.none ∧
    slowAsyncTool.timeout < slowAsyncTool.duration ∧
    tr_execute regSlowAsync "slow_async" [] =
      (Except.ok (ExecResult.err "timeout" 1), [Eff.handlerInvoked "slow_async" []]) :=
  ⟨rfl, rfl, rfl, by decide,
   c2_async_timeout regSlowAsync "slow_async" slowAsyncTool [] rfl rfl rfl (by decide)⟩

/-! ### C1 — the orchestrator tool path skips the tool-safety check -/

/-- C1 failing-input evaluation (code bug).  The spec invariant says every
tool invocation is preceded by `check_tool_safety` and no tool runs while
`safe = false`.  On the orchestrator path this is violated:
`handle_tool_request("file_write", {"path": "notes.txt"})` — with `file_write`
registered and not configured as high-risk — validates, then
`execute_tool_safely` (whose docstring even promises "safety checks") invokes
the handler directly; its effect trace contains the handler invocation and no
`toolSafetyChecked` effect, although `check_tool_safety` on this very request
returns `safe = false`.  By contrast the agent path (`Agent.use_tool`) does
run the check and rejects the same request without invoking the handler. -/
theorem c1_orchestrator_tool_path_has_no_safety_check :
    (check_tool_safety { name := "file_write", args := fwArgs, requester := "orch" }).safe
        = false ∧
    handle_tool_request cfg0 regFW "file_write" fwArgs =
      (HandleToolResult.res (OrchToolResult.ok (ExecResult.ok (Py.str "written") 1) 1),
        [Eff.handlerInvoked "file_write" fwArgs]) ∧
    agent_use_tool ["file_write"] "agent-1" regFW "file_write" fwArgs =
      (UseToolResult.safetyRejected [fwIssue], [Eff.toolSafetyChecked "file_write" false]) :=
  ⟨rfl, rfl, rfl⟩

/-! ### C3 — agent status after `process_message` -/

/-- C3 counterexample.  The claim says the agent's status is never left at
`"processing"` after `process_message` returns.  On a safety rejection the
method returns from inside the `try` block right after setting
`self.status = "processing"`, with no further assignment — so the status IS
left at `"processing"`. -/
theorem c3_counterexample :
    ((process_message rejectAllGuard notImplementedGen "t0"
        { status := "idle", memory := [], memory_size := 1000 }
        (Py.dict [("content", Py.str "My SSN is 123-45-6789")])).1.status = "processing") :=
  rfl

/-- C3 (amended): full status/result characterization of
`Agent.process_message`.  The status afterwards is `"idle"` when a response
was generated, `"error"` when generation raised, and — the amendment —
`"processing"` (not `"error"`) on a safety rejection, whose result is the
`{"success": false, "error": "Safety check failed", "issues": ...}` dict. -/
theorem c3_status_and_result_characterization (guard : Py → SafetyResult)
    (gen : Py → Except String Py) (now : String) (st : AgentState) (msg : Py) :
    (process_message guard gen now st msg).1.status = statusAfterSpec guard gen msg ∧
    (process_message guard gen now st msg).2 = resultAfterSpec guard gen msg := by
  unfold process_message statusAfterSpec resultAfterSpec
  cases hg : (guard (msgContent msg)).safe
  · simp [hg]
  · cases hgen : gen msg <;> simp [hg, hgen]

/-! ### C7 — undeliverable DIRECT messages -/

/-- C7: routing a DIRECT message whose `recipient_id` is falsy (None/empty) or
has no registered route returns normally (the function is total — the source
logs and returns, and its outer `try/except` swallows anything else), appends
exactly that message to the bounded history, and produces no effect: no route
callback runs and no event subscriber is called. -/
theorem c7_direct_unroutable_drops_silently (rt : RouterState) (msg : Message)
    (htype : msg.type = MessageType.direct)
    (hrec : recipientFalsy msg.recipient_id = true ∨
      (∃ r, msg.recipient_id = Option.some r ∧ rt.routes.contains r = false)) :
    route_message rt msg =
      ({ rt with history := push_history rt.history rt.history_limit msg }, []) := by
  unfold route_message
  rw [htype]
  dsimp only
  rcases hrec with hf | ⟨r, hr, hnc⟩
  · rw [if_pos hf]
  · by_cases hf : recipientFalsy msg.recipient_id = true
    · rw [if_pos hf]
    · rw [if_neg hf, hr]
      simp only [hnc, Bool.false_eq_true, if_false]

/-- C7 witness: the theorem applied to a concrete unroutable DIRECT message. -/
theorem c7_witness :
    msgW.type = MessageType.direct ∧
    (∃ r, msgW.recipient_id = Option.some r ∧ rtW.routes.contains r = false) ∧
    route_message rtW msgW = ({ rtW with history := [msgW] }, []) :=
  ⟨rfl, ⟨"ghost", rfl, rfl⟩,
   c7_direct_unroutable_drops_silently rtW msgW rfl (Or.inr ⟨"ghost", rfl, rfl⟩)⟩

/-! ### C8 — LongTermMemory round trip -/

/-- Updating a key then reading it back yields the written value (helper about
the dict/file-store update). -/
theorem getKV_setKV {β : Type} (m : List (String × β)) (k : String) (v : β) :
    getKV (setKV m k v) k = Option.some v := by
  unfold getKV setKV
  by_cases hany : m.any (fun kv => kv.1 == k) = true
  · rw [if_pos hany]
    induction m with
    | nil => simp at hany
    | cons a t ih =>
      simp only [List.map_cons, List.find?]
      by_cases ha : a.1 == k
      · simp [ha]
      · simp only [ha, Bool.false_eq_true, if_false]
        have ht : t.any (fun kv => kv.1 == k) = true := by
          simp only [List.any_cons, ha, Bool.false_or] at hany
          exact hany
        have := ih ht
        simpa [ha] using this
  · rw [if_neg hany]
    induction m with
    | nil => simp
    | cons a t ih =>
      simp only [List.any_cons, Bool.or_eq_true, not_or] at hany
      simp only [List.cons_append, List.find?]
      rw [Bool.not_eq_true] at hany
      simp only [hany.1, if_false]
      exact ih (by simp [hany.2])

/-- C8: `LongTermMemory.add` then `get` on the same id returns the serialized
entry whose `content` field is structurally equal to `entry.content`, and the
index record under that id carries the entry's importance and (isoformat)
timestamp. -/
theorem c8_ltm_round_trip (st : LTMState) (e : MemoryEntry) :
    ltm_get (ltm_add st e) e.id = Option.some (entry_to_dict e) ∧
    dictGet (entryKVs e) "content" = Option.some e.content ∧
    getKV (ltm_add st e).index e.id = Option.some
      { id := e.id, memory_type := e.memory_type, timestamp := isoformat e.timestamp
        importance := e.importance, metadata := e.metadata } := by
  refine ⟨?_, rfl, ?_⟩
  · unfold ltm_get ltm_add
    rw [getKV_setKV]
    exact getKV_setKV st.files e.id (entry_to_dict e)
  · exact getKV_setKV st.index e.id _

/-! ### C9 — the orchestrator returns the routed content, not the agent's reply -/

/-- C9: on the success path (resource check passes),
`process_with_agent` returns `{"success": True, "response": {"content":
message}}` — the content of the DIRECT message it constructed — and the
outcome is identical for any two values the routed agent's `process_message`
could return, because `_handle_direct` discards the callback's value
(protocol.py line 143). -/
theorem c9_response_is_message_content (limits : List (String × ℚ)) (rt : RouterState)
    (agentId : String) (resp1 resp2 : Py) (message msgId : String) (now : Nat)
    (h : check_resource_limits limits = Except.ok false) :
    (process_with_agent limits rt agentId resp1 message msgId now).2.2 =
      PWAResult.ok (Py.dict [("content", Py.str message)]) ∧
    process_with_agent limits rt agentId resp1 message msgId now =
      process_with_agent limits rt agentId resp2 message msgId now := by
  unfold process_with_agent
  rw [h]
  exact ⟨rfl, rfl⟩

/-- C9 witness: concrete run; the agent's would-be replies differ, the
orchestrator outcome does not. -/
theorem c9_witness :
    check_resource_limits limitsW = Except.ok false ∧
    (process_with_agent limitsW rtW "agent-a" (Py.str "AGENT REPLY") "hello" "m2" 5).2.2 =
      PWAResult.ok (Py.dict [("content", Py.str "hello")]) ∧
    process_with_agent limitsW rtW "agent-a" (Py.str "AGENT REPLY") "hello" "m2" 5 =
      process_with_agent limitsW rtW "agent-a" (Py.str "IGNORED") "hello" "m2" 5 :=
  ⟨rfl,
   (c9_response_is_message_content limitsW rtW "agent-a" (Py.str "AGENT REPLY")
      (Py.str "IGNORED") "hello" "m2" 5 rfl).1,
   (c9_response_is_message_content limitsW rtW "agent-a" (Py.str "AGENT REPLY")
      (Py.str "IGNORED") "hello" "m2" 5 rfl).2⟩

/-! ### C10 — zero limits are falsy in the read accessors -/

/-- C10: `WorkingMemory.get_recent`, `MessageRouter.get_history` and
`Agent.get_memory` treat a zero limit like no limit (Python falsiness), so
they return the entire stored collection — for `get_recent`, the whole
collection in timestamp-descending order (a permutation of the memory); for
every positive limit `n`, at most `n` entries come back. -/
theorem c10_zero_limit_returns_everything (mem : List MemoryEntry) (h : List Message)
    (st : AgentState) (n : Nat) (hn : 0 < n) :
    (wm_get_recent mem 0).Perm mem ∧
    get_history h 0 = h ∧
    agent_get_memory st 0 = st.memory ∧
    (wm_get_recent mem n).length ≤ n ∧
    (get_history h n).length ≤ n ∧
    (agent_get_memory st n).length ≤ n := by
  refine ⟨?_, rfl, rfl, ?_, ?_, ?_⟩
  · unfold wm_get_recent
    simp only [ne_eq, not_true_eq_false, if_neg, if_false]
    exact List.perm_insertionSort _ mem
  · unfold wm_get_recent
    rw [if_pos (Nat.pos_iff_ne_zero.mp hn)]
    exact List.length_take_le n _
  · unfold get_history
    rw [if_pos (Nat.pos_iff_ne_zero.mp hn)]
    rw [List.length_drop]
    omega
  · unfold agent_get_memory
    rw [if_pos (Nat.pos_iff_ne_zero.mp hn)]
    rw [List.length_drop]
    omega

/-- C10 witness: the theorem applied at a two-entry store with limit 1. -/
theorem c10_witness :
    0 < 1 ∧
    ((wm_get_recent [wmEntryA, wmEntryB] 0).Perm [wmEntryA, wmEntryB] ∧
     get_history [msgW] 0 = [msgW] ∧
     agent_get_memory { status := "idle", memory := [Py.str "x"], memory_size := 5 } 0 =
       [Py.str "x"] ∧
     (wm_get_recent [wmEntryA, wmEntryB] 1).length ≤ 1 ∧
     (get_history [msgW] 1).length ≤ 1 ∧
     (agent_get_memory { status := "idle", memory := [Py.str "x"], memory_size := 5 } 1).length
       ≤ 1) :=
  ⟨by decide,
   c10_zero_limit_returns_everything [wmEntryA, wmEntryB] [msgW]
     { status := "idle", memory := [Py.str "x"], memory_size := 5 } 1 (by decide)⟩

/-! ### C6 — routing the fibonacci request -/

/-- Of the five code keywords, only "function" occurs in the lowered message. -/
theorem keyword_matches_fib_code :
    keyword_matches fibMsg ["code", "function", "bug", "error", "programming"] = 1 := by
  decide

/-- No research keyword occurs in the lowered message. -/
theorem keyword_matches_fib_research :
    keyword_matches fibMsg ["research", "information", "find", "search"] = 0 := by
  decide

/-- No task keyword occurs in the lowered message. -/
theorem keyword_matches_fib_task :
    keyword_matches fibMsg ["task", "plan", "coordinate", "manage"] = 0 := by
  decide

/-- Keyword scoring picks the code type for the fibonacci request, with score
1/5 (one of five keywords matched). -/
theorem best_type_fib : best_type fibMsg = (AgentKind.code, (1 : ℚ) / 5) := by
  unfold best_type routing_keywords
  simp only [List.map_cons, List.map_nil, List.foldl_cons, List.foldl_nil]
  unfold keyword_score
  rw [keyword_matches_fib_code, keyword_matches_fib_research, keyword_matches_fib_task]
  norm_num

/-- C6 counterexample.  The claim asserts the routing decision for the
fibonacci request carries `confidence ≥ 0.4`; in fact the score is
1 matched keyword / 5 keywords = 0.2, which is strictly below 0.4 (= 2/5).
The agent part of the claim holds: the decision names the code agent. -/
theorem c6_counterexample :
    orch_route_message roster3 (Option.some "agent-task") fibMsg =
      Except.ok { agent_id := "agent-code", confidence := (1 : ℚ) / 5
                  reason := "Matched keywords for code agent" } ∧
    ¬((2 : ℚ) / 5 ≤ (1 : ℚ) / 5) := by
  constructor
  · unfold orch_route_message
    rw [best_type_fib]
    rfl
  · norm_num

/-- C6 (amended): for any roster whose first code-class agent is `a`,
`_route_message` on the fibonacci request decides for `a` via the keyword
match on "function", with confidence exactly 1/5 = 0.2 — below the claimed
0.4 bound and below the 0.7 escalation threshold (so the reference flow
proceeds only through the auto-approving human-intervention hook). -/
theorem c6_routes_to_code_agent_with_fifth_confidence
    (roster : List (String × AgentKind)) (taskAgent : Option String)
    (a : String × AgentKind)
    (hfind : roster.find? (fun x => x.2 == AgentKind.code) = Option.some a) :
    orch_route_message roster taskAgent fibMsg =
      Except.ok { agent_id := a.1, confidence := (1 : ℚ) / 5
                  reason := "Matched keywords for code agent" } ∧
    (1 : ℚ) / 5 < (2 : ℚ) / 5 ∧ (1 : ℚ) / 5 < (7 : ℚ) / 10 := by
  constructor
  · unfold orch_route_message
    rw [best_type_fib]
    dsimp only
    rw [hfind]
    rfl
  · norm_num

/-- C6 witness: the amended theorem applied to the three-agent roster. -/
theorem c6_witness :
    roster3.find? (fun x => x.2 == AgentKind.code) =
      Option.some ("agent-code", AgentKind.code) ∧
    (orch_route_message roster3 (Option.some "agent-task") fibMsg =
      Except.ok { agent_id := "agent-code", confidence := (1 : ℚ) / 5
                  reason := "Matched keywords for code agent" } ∧
     (1 : ℚ) / 5 < (2 : ℚ) / 5 ∧ (1 : ℚ) / 5 < (7 : ℚ) / 10) :=
  ⟨rfl, c6_routes_to_code_agent_with_fifth_confidence roster3 (Option.some "agent-task")
    ("agent-code", AgentKind.code) rfl⟩

/-! ### C5 — working-memory capacity and eviction policy

Helper lemmas about counting, the eviction priority order `lexLt`, stability
of the sort in `WorkingMemory.add`, and the retention invariant. -/

/-- Pointwise-implied predicates count no more often. -/
theorem countP_le_countP {α : Type} (p q : α → Bool) (l : List α)
    (h : ∀ a ∈ l, p a = true → q a = true) : l.countP p ≤ l.countP q := by
  induction l with
  | nil => simp
  | cons a t ih =>
    rw [List.countP_cons, List.countP_cons]
    have ht := ih (fun b hb => h b (List.mem_cons_of_mem a hb))
    have : (if p a then 1 else 0) ≤ (if q a then 1 else 0) := by
      by_cases hpa : p a = true
      · rw [if_pos hpa, if_pos (h a (List.mem_cons_self a t) hpa)]
      · simp [hpa]
    omega

/-- A member the predicate misses makes the count strictly short of the
length. -/
theorem countP_lt_length {α : Type} (p : α → Bool) {l : List α} {x : α}
    (hx : x ∈ l) (hpx : p x = false) : l.countP p < l.length := by
  induction l with
  | nil => cases hx
  | cons a t ih =>
    rw [List.countP_cons, List.length_cons]
    rcases List.mem_cons.mp hx with rfl | hxt
    · rw [hpx]
      simp only [Bool.false_eq_true, if_false]
      have := List.countP_le_length p (l := t)
      omega
    · have := ih hxt
      by_cases hpa : p a = true <;> simp [hpa] <;> omega

/-- Counting over a duplicate-free list is bounded by counting over any list
containing its satisfying members. -/
theorem countP_le_of_nodup {α : Type} (p : α → Bool) {l m : List α}
    (hnd : l.Nodup) (hsub : ∀ a ∈ l, p a = true → a ∈ m) :
    l.countP p ≤ m.countP p := by
  rw [List.countP_eq_length_filter, List.countP_eq_length_filter]
  have h1 : (l.filter p).Nodup := hnd.filter p
  have h2 : l.filter p ⊆ m.filter p := by
    intro a ha
    have hm := List.mem_filter.mp ha
    exact List.mem_filter.mpr ⟨hsub a hm.1 hm.2, hm.2⟩
  exact (h1.subperm h2).length_le

/-- `lexLt` is transitive. -/
theorem lexLt_trans {a b c : MemoryEntry} (h1 : lexLt a b) (h2 : lexLt b c) :
    lexLt a c := by
  rcases h1 with h1 | ⟨h1, h1t⟩ <;> rcases h2 with h2 | ⟨h2, h2t⟩
  · exact Or.inl (lt_trans h1 h2)
  · exact Or.inl (h2 ▸ h1)
  · exact Or.inl (h1 ▸ h2)
  · exact Or.inr ⟨h1.trans h2, lt_trans h1t h2t⟩

/-- `lexLt` is irreflexive. -/
theorem lexLt_irrefl (a : MemoryEntry) : ¬ lexLt a a := by
  intro h
  rcases h with h | ⟨_, h⟩
  · exact lt_irrefl _ h
  · exact lt_irrefl _ h

/-- `lexLt` is asymmetric. -/
theorem lexLt_asymm {a b : MemoryEntry} (h : lexLt a b) : ¬ lexLt b a :=
  fun h2 => lexLt_irrefl a (lexLt_trans h h2)

/-- Entries with distinct timestamps are `lexLt`-comparable. -/
theorem lexLt_connex {a b : MemoryEntry} (hts : a.timestamp ≠ b.timestamp) :
    lexLt a b ∨ lexLt b a := by
  rcases lt_trichotomy a.importance b.importance with h | h | h
  · exact Or.inl (Or.inl h)
  · rcases Nat.lt_or_ge a.timestamp b.timestamp with ht | ht
    · exact Or.inl (Or.inr ⟨h, ht⟩)
    · exact Or.inr (Or.inr ⟨h.symm, lt_of_le_of_ne ht (Ne.symm hts)⟩)
  · exact Or.inr (Or.inl h)

/-- Ranks are invariant under permutation. -/
theorem rank_perm {l₁ l₂ : List MemoryEntry} (h : l₁.Perm l₂) (e : MemoryEntry) :
    rank l₁ e = rank l₂ e :=
  h.countP_eq _

/-- Rank over an append is the sum of the ranks. -/
theorem rank_append (l₁ l₂ : List MemoryEntry) (e : MemoryEntry) :
    rank (l₁ ++ l₂) e = rank l₁ e + rank l₂ e :=
  List.countP_append _ _ _

/-- A member of the list outranks strictly fewer entries than the length. -/
theorem rank_lt_length {l : List MemoryEntry} {e : MemoryEntry} (he : e ∈ l) :
    rank l e < l.length :=
  countP_lt_length _ he (by simp [lexLt_irrefl])

/-- Along `lexLt`, the larger member has the strictly smaller rank. -/
theorem rank_lt_rank {l : List MemoryEntry} {x y : MemoryEntry}
    (hy : y ∈ l) (hxy : lexLt x y) : rank l y < rank l x := by
  induction l with
  | nil => cases hy
  | cons a t ih =>
    simp only [rank, List.countP_cons, decide_eq_true_eq] at ih ⊢
    rcases List.mem_cons.mp hy with rfl | hyt
    · have hcnt : t.countP (fun z => decide (lexLt y z)) ≤
          t.countP (fun z => decide (lexLt x z)) :=
        countP_le_countP _ _ t (fun b _ hb =>
          decide_eq_true (lexLt_trans hxy (of_decide_eq_true hb)))
      rw [if_neg (lexLt_irrefl y), if_pos hxy]
      omega
    · have h1 := ih hyt
      have h2 : (if lexLt y a then 1 else 0) ≤ (if lexLt x a then 1 else 0) := by
        by_cases ha : lexLt y a
        · rw [if_pos ha, if_pos (lexLt_trans hxy ha)]
        · rw [if_neg ha]
          exact Nat.zero_le _
      omega

/-- In a list with strictly increasing timestamps, members are determined by
their timestamp. -/
theorem eq_of_mem_ts {l : List MemoryEntry}
    (h : l.Pairwise (fun a b => a.timestamp < b.timestamp)) {x y : MemoryEntry}
    (hx : x ∈ l) (hy : y ∈ l) (hts : x.timestamp = y.timestamp) : x = y := by
  induction l with
  | nil => cases hx
  | cons a t ih =>
    have hp := List.pairwise_cons.mp h
    rcases List.mem_cons.mp hx with rfl | hxt <;> rcases List.mem_cons.mp hy with rfl | hyt
    · rfl
    · exact absurd hts (Nat.ne_of_lt (hp.1 y hyt))
    · exact absurd hts.symm (Nat.ne_of_lt (hp.1 x hxt))
    · exact ih hp.2 hxt hyt

/-- `orderedInsert` preserves coherence when the inserted entry is older than
every equally-important entry already present (the stability argument). -/
theorem coherent_orderedInsert (a : MemoryEntry) (l : List MemoryEntry)
    (hcoh : Coherent l)
    (ha : ∀ b ∈ l, a.importance = b.importance → a.timestamp < b.timestamp) :
    Coherent (l.orderedInsert impLe a) := by
  induction l with
  | nil => exact List.pairwise_singleton _ _
  | cons b t ih =>
    rw [List.orderedInsert]
    have hbt := List.pairwise_cons.mp hcoh
    split_ifs with hab
    · exact List.Pairwise.cons (fun c hc => ha c hc) hcoh
    · refine List.Pairwise.cons ?_
        (ih hbt.2 (fun c hc => ha c (List.mem_cons_of_mem b hc)))
      intro c hc himp
      rcases (List.mem_orderedInsert impLe).mp hc with rfl | hcl
      · exact absurd (le_of_eq himp.symm) hab
      · exact hbt.1 c hcl himp

/-- The stable sort of `WorkingMemory.add` preserves coherence. -/
theorem coherent_insertionSort (l : List MemoryEntry) (h : Coherent l) :
    Coherent (l.insertionSort impLe) := by
  induction l with
  | nil => exact List.Pairwise.nil
  | cons a t ih =>
    rw [List.insertionSort]
    have hp := List.pairwise_cons.mp h
    refine coherent_orderedInsert a _ (ih hp.2) (fun b hb => ?_)
    exact hp.1 b ((List.perm_insertionSort impLe t).subset hb)

/-- A list sorted ascending by importance that is also coherent is strictly
sorted in the eviction priority order. -/
theorem pairwise_lexLt_of_sorted_coherent {l : List MemoryEntry}
    (hs : l.Sorted impLe) (hc : Coherent l) : l.Pairwise lexLt := by
  refine (hs.and hc).imp ?_
  intro a b hab
  rcases lt_or_eq_of_le hab.1 with h | h
  · exact Or.inl h
  · exact Or.inr ⟨h, hab.2 h⟩

/-- In a strictly `lexLt`-sorted list, the suffix of length `cap` (obtained by
`drop (length - cap)`) holds exactly the members with fewer than `cap`
strictly larger competitors. -/
theorem mem_drop_iff_rank_lt (cap : Nat) :
    ∀ (l : List MemoryEntry), l.Pairwise lexLt →
      ∀ e, e ∈ l.drop (l.length - cap) ↔ e ∈ l ∧ rank l e < cap := by
  intro l
  induction l with
  | nil => intro _ e; simp [rank]
  | cons z t ih =>
    intro hp e
    have hz := (List.pairwise_cons.mp hp).1
    have hpt := (List.pairwise_cons.mp hp).2
    by_cases hlen : (z :: t).length ≤ cap
    · rw [Nat.sub_eq_zero_of_le hlen, List.drop_zero]
      constructor
      · intro he
        exact ⟨he, lt_of_lt_of_le (rank_lt_length he) hlen⟩
      · exact fun h => h.1
    · have hcap : cap ≤ t.length := by
        simp only [List.length_cons] at hlen
        omega
      have hdrop : (z :: t).length - cap = (t.length - cap) + 1 := by
        simp only [List.length_cons]
        omega
      rw [hdrop, List.drop_succ_cons]
      have hznt : z ∉ t := fun hzt => lexLt_irrefl z (hz z hzt)
      rcases eq_or_ne e z with rfl | hne
      · constructor
        · intro hin
          exact absurd ((List.drop_sublist _ _).subset hin) hznt
        · intro h
          have hct : t.countP (fun y => decide (lexLt e y)) = t.length :=
            List.countP_eq_length.mpr (fun y hy => decide_eq_true (hz y hy))
          have hee : decide (lexLt e e) = false := decide_eq_false (lexLt_irrefl e)
          have hall : rank (e :: t) e = t.length := by
            simp only [rank, List.countP_cons, hee, Bool.false_eq_true, if_false, hct]
            omega
          rw [hall] at h
          omega
      · have hr : e ∈ t → rank (z :: t) e = rank t e := by
          intro het
          have hez : decide (lexLt e z) = false :=
            decide_eq_false (lexLt_asymm (hz e het))
          simp only [rank, List.countP_cons, hez, Bool.false_eq_true, if_false]
          omega
        constructor
        · intro hin
          have het : e ∈ t := (List.drop_sublist _ _).subset hin
          have h1 := (ih hpt e).mp hin
          exact ⟨List.mem_cons_of_mem z h1.1, (hr het) ▸ h1.2⟩
        · intro h
          have het : e ∈ t := by
            rcases List.mem_cons.mp h.1 with rfl | het
            · exact absurd rfl hne
            · exact het
          exact (ih hpt e).mpr ⟨het, (hr het) ▸ h.2⟩

/-- Strictly increasing timestamps imply no duplicates. -/
theorem nodup_of_ts_lt {l : List MemoryEntry}
    (h : l.Pairwise (fun a b => a.timestamp < b.timestamp)) : l.Nodup :=
  List.Pairwise.imp
    (fun hlt heq => absurd (congrArg MemoryEntry.timestamp heq) (Nat.ne_of_lt hlt)) h

/-- Pairwise-distinct timestamps imply no duplicates. -/
theorem nodup_of_tsDistinct {l : List MemoryEntry} (h : TsDistinct l) : l.Nodup :=
  List.Pairwise.imp (fun hne heq => hne (congrArg MemoryEntry.timestamp heq)) h

/-- `wm_add` below capacity: plain append. -/
theorem wm_add_small {cap : Nat} {mem : List MemoryEntry} {e : MemoryEntry}
    (h : ¬ cap < (mem ++ [e]).length) : wm_add cap mem e = mem ++ [e] := by
  simp only [wm_add]
  rw [if_neg h]

/-- `wm_add` over capacity (positive cap): stable sort then keep the last
`cap` entries. -/
theorem wm_add_evict {cap : Nat} {mem : List MemoryEntry} {e : MemoryEntry}
    (hcap : cap ≠ 0) (h : cap < (mem ++ [e]).length) :
    wm_add cap mem e =
      ((mem ++ [e]).insertionSort impLe).drop
        (((mem ++ [e]).insertionSort impLe).length - cap) := by
  simp only [wm_add]
  rw [if_pos h, if_neg hcap]

/-- One `WorkingMemory.add` call preserves the retention invariant, for any
positive capacity, when the added entry is fresher than all history. -/
theorem wmInv_step (cap : Nat) (hcap : 1 ≤ cap) (pre st : List MemoryEntry)
    (inv : WMInv cap pre st)
    (preTs : pre.Pairwise (fun a b => a.timestamp < b.timestamp))
    (e : MemoryEntry) (he : ∀ x ∈ pre, x.timestamp < e.timestamp) :
    WMInv cap (pre ++ [e]) (wm_add cap st e) := by
  have hsub : ∀ x ∈ st, x ∈ pre := fun x hx => ((inv.mem x).mp hx).1
  have hstTs : ∀ x ∈ st, x.timestamp < e.timestamp := fun x hx => he x (hsub x hx)
  have hstNodup : st.Nodup := nodup_of_tsDistinct inv.tsd
  have hpreNodup : pre.Nodup := nodup_of_ts_lt preTs
  have hmCoh : Coherent (st ++ [e]) := by
    show List.Pairwise cohRel (st ++ [e])
    rw [List.pairwise_append]
    refine ⟨inv.coh, List.pairwise_singleton _ _, fun a ha b hb => ?_⟩
    rcases List.mem_singleton.mp hb with rfl
    exact fun _ => hstTs a ha
  have hmTsd : TsDistinct (st ++ [e]) := by
    show List.Pairwise _ (st ++ [e])
    rw [List.pairwise_append]
    refine ⟨inv.tsd, List.pairwise_singleton _ _, fun a ha b hb => ?_⟩
    rcases List.mem_singleton.mp hb with rfl
    exact Nat.ne_of_lt (hstTs a ha)
  have hrank_st_le : ∀ x, rank st x ≤ rank pre x := fun x =>
    countP_le_of_nodup _ hstNodup (fun a ha _ => hsub a ha)
  by_cases hover : cap < (st ++ [e]).length
  · -- eviction: st is full (|st| = cap), one entry must go
    rw [wm_add_evict (by omega) hover]
    have hstlen : st.length = cap := by
      have h1 : st.length ≤ cap := by
        rw [inv.len]; exact Nat.min_le_right _ _
      rw [List.length_append, List.length_singleton] at hover
      omega
    have hpreci : cap ≤ pre.length := by
      have h2 := inv.len
      rw [hstlen] at h2
      rcases Nat.le_total pre.length cap with h | h
      · rw [Nat.min_eq_left h] at h2
        omega
      · exact h
    have hsperm : ((st ++ [e]).insertionSort impLe).Perm (st ++ [e]) :=
      List.perm_insertionSort impLe _
    have hsSorted : ((st ++ [e]).insertionSort impLe).Sorted impLe :=
      List.sorted_insertionSort impLe _
    have hsCoh : Coherent ((st ++ [e]).insertionSort impLe) :=
      coherent_insertionSort _ hmCoh
    have hsLex : ((st ++ [e]).insertionSort impLe).Pairwise lexLt :=
      pairwise_lexLt_of_sorted_coherent hsSorted hsCoh
    have hslen : ((st ++ [e]).insertionSort impLe).length = cap + 1 := by
      rw [hsperm.length_eq, List.length_append, List.length_singleton, hstlen]
    have hkey : ∀ x, (x ∈ st ++ [e] ∧ rank (st ++ [e]) x < cap) ↔
        (x ∈ pre ++ [e] ∧ rank (pre ++ [e]) x < cap) := by
      intro x
      constructor
      · rintro ⟨hx, hrx⟩
        have hxpre : x ∈ pre ++ [e] := by
          rcases List.mem_append.mp hx with hxst | hxe
          · exact List.mem_append.mpr (Or.inl (hsub x hxst))
          · exact List.mem_append.mpr (Or.inr hxe)
        refine ⟨hxpre, ?_⟩
        -- every history entry that outranks x is still retained
        have hA : ∀ y ∈ pre, lexLt x y → y ∈ st := by
          intro y hypre hxy
          by_contra hynot
          have hry : cap ≤ rank pre y := by
            by_contra hlt
            push_neg at hlt
            exact hynot ((inv.mem y).mpr ⟨hypre, hlt⟩)
          have hB : ∀ z ∈ st, lexLt y z := by
            intro z hz2
            have hzpre := hsub z hz2
            have hzy : z ≠ y := fun heq => hynot (heq ▸ hz2)
            have htsne : z.timestamp ≠ y.timestamp := fun heq =>
              hzy (eq_of_mem_ts preTs hzpre hypre heq)
            rcases lexLt_connex htsne with hzy2 | hyz
            · have h3 := rank_lt_rank hypre hzy2
              have h4 := ((inv.mem z).mp hz2).2
              omega
            · exact hyz
          rcases List.mem_append.mp hx with hxst | hxe
          · exact absurd (hB x hxst) (lexLt_asymm hxy)
          · rcases List.mem_singleton.mp hxe with rfl
            have hcst : rank st x = st.length :=
              List.countP_eq_length.mpr (fun z hz2 =>
                decide_eq_true (lexLt_trans hxy (hB z hz2)))
            have h5 := rank_append st [x] x
            rw [hcst, hstlen] at h5
            omega
        have hple : rank pre x ≤ rank st x :=
          countP_le_of_nodup _ hpreNodup
            (fun y hy hp => hA y hy (of_decide_eq_true hp))
        have h6 := rank_append pre [e] x
        have h7 := rank_append st [e] x
        omega
      · rintro ⟨hx', hrx'⟩
        have hrm : rank (st ++ [e]) x < cap := by
          have h6 := rank_append pre [e] x
          have h7 := rank_append st [e] x
          have := hrank_st_le x
          omega
        refine ⟨?_, hrm⟩
        rcases List.mem_append.mp hx' with hxpre | hxe
        · have hrp : rank pre x < cap := by
            have h6 := rank_append pre [e] x
            omega
          exact List.mem_append.mpr (Or.inl ((inv.mem x).mpr ⟨hxpre, hrp⟩))
        · exact List.mem_append.mpr (Or.inr hxe)
    refine ⟨?_, ?_, ?_, ?_⟩
    · rw [List.length_drop, hslen, List.length_append, List.length_singleton]
      have : cap ≤ pre.length + 1 := by omega
      rw [Nat.min_eq_right this]
      omega
    · intro x
      rw [mem_drop_iff_rank_lt cap _ hsLex x, hsperm.mem_iff, rank_perm hsperm x]
      exact hkey x
    · exact List.Pairwise.sublist (List.drop_sublist _ _) hsCoh
    · refine List.Pairwise.sublist (List.drop_sublist _ _) ?_
      exact ((hsperm.pairwise_iff (fun h => Ne.symm h)).mpr hmTsd)
  · -- no eviction: the whole history still fits
    rw [wm_add_small hover]
    rw [List.length_append, List.length_singleton] at hover
    have hca : pre.length < cap := by
      by_contra hge
      push_neg at hge
      have : st.length = cap := by
        rw [inv.len]
        exact Nat.min_eq_right hge
      omega
    have hstlen : st.length = pre.length := by
      rw [inv.len]
      exact Nat.min_eq_left (le_of_lt hca)
    refine ⟨?_, ?_, hmCoh, hmTsd⟩
    · rw [List.length_append, List.length_singleton, hstlen,
        List.length_append, List.length_singleton]
      rw [Nat.min_eq_left (by omega)]
    · intro x
      constructor
      · intro hx
        have hxpre : x ∈ pre ++ [e] := by
          rcases List.mem_append.mp hx with hxst | hxe
          · exact List.mem_append.mpr (Or.inl (hsub x hxst))
          · exact List.mem_append.mpr (Or.inr hxe)
        refine ⟨hxpre, ?_⟩
        have := rank_lt_length hxpre
        rw [List.length_append, List.length_singleton] at this
        omega
      · rintro ⟨hx', _⟩
        rcases List.mem_append.mp hx' with hxpre | hxe
        · have hrp : rank pre x < cap :=
            lt_of_lt_of_le (rank_lt_length hxpre) (le_of_lt hca)
          exact List.mem_append.mpr (Or.inl ((inv.mem x).mpr ⟨hxpre, hrp⟩))
        · exact List.mem_append.mpr (Or.inr hxe)

/-- Stamping preserves the sequence length. -/
theorem stampedFrom_length (i : Nat) (ps : List ℚ) :
    (stampedFrom i ps).length = ps.length := by
  induction ps generalizing i with
  | nil => rfl
  | cons p ps ih => simp [stampedFrom, ih]

/-- Folding `WorkingMemory.add` over a fresh stamped suffix preserves the
retention invariant. -/
theorem wmInv_run (cap : Nat) (hcap : 1 ≤ cap) :
    ∀ (ps : List ℚ) (i : Nat) (pre st : List MemoryEntry),
      WMInv cap pre st →
      pre.Pairwise (fun a b => a.timestamp < b.timestamp) →
      (∀ x ∈ pre, x.timestamp < i) →
      WMInv cap (pre ++ stampedFrom i ps) ((stampedFrom i ps).foldl (wm_add cap) st) := by
  intro ps
  induction ps with
  | nil =>
    intro i pre st inv _ _
    simpa [stampedFrom] using inv
  | cons p ps ih =>
    intro i pre st inv hts hbound
    simp only [stampedFrom, List.foldl_cons]
    have hstep := wmInv_step cap hcap pre st inv hts (stampEntry i p)
      (fun x hx => hbound x hx)
    have hts2 : (pre ++ [stampEntry i p]).Pairwise
        (fun a b => a.timestamp < b.timestamp) := by
      rw [List.pairwise_append]
      refine ⟨hts, List.pairwise_singleton _ _, fun a ha b hb => ?_⟩
      rcases List.mem_singleton.mp hb with rfl
      exact hbound a ha
    have hbound2 : ∀ x ∈ pre ++ [stampEntry i p], x.timestamp < i + 1 := by
      intro x hx
      rcases List.mem_append.mp hx with h | h
      · exact Nat.lt_succ_of_lt (hbound x h)
      · rcases List.mem_singleton.mp h with rfl
        exact Nat.lt_succ_self i
    have hrec := ih (i + 1) (pre ++ [stampEntry i p]) (wm_add cap st (stampEntry i p))
      hstep hts2 hbound2
    simpa [List.append_assoc, List.singleton_append] using hrec

/-- C5 counterexample.  The claim quantifies over every capacity N; at N = 0
nothing is ever evicted, because the Python slice `self._memory[-0:]` is the
WHOLE list, so after one add the size is 1 > 0 and the capacity bound fails. -/
theorem c5_counterexample : ¬ ((wm_run 0 (stamped [(1 : ℚ)])).length ≤ 0) := by decide

/-- C5 (amended): for every POSITIVE capacity and every add sequence (entries
stamped with their add order, importances arbitrary), the working-memory size
after the run is exactly `min (number added) cap` — so it never exceeds the
capacity, and after `N + k` adds exactly `N` entries remain — and an entry is
retained exactly when fewer than `cap` entries of the sequence outrank it,
where an entry outranks another when it has strictly higher importance, or
equal importance and a later add position (ties broken by recency: the oldest
are evicted first). -/
theorem c5_capacity_and_retention (cap : Nat) (imps : List ℚ) (hcap : 1 ≤ cap) :
    (wm_run cap (stamped imps)).length = min imps.length cap ∧
    (∀ e, e ∈ wm_run cap (stamped imps) ↔
      e ∈ stamped imps ∧ rank (stamped imps) e < cap) := by
  have base : WMInv cap [] [] := by
    refine ⟨by simp, fun e => ?_, List.Pairwise.nil, List.Pairwise.nil⟩
    simp [rank]
  have run := wmInv_run cap hcap imps 0 [] [] base List.Pairwise.nil (by simp)
  rw [List.nil_append] at run
  constructor
  · have hl := run.len
    rw [stampedFrom_length] at hl
    exact hl
  · exact fun e => run.mem e

/-- C5 witness: the amended theorem applied at capacity 2 to four adds with
importances 5, 1, 5, 2. -/
theorem c5_witness :
    1 ≤ 2 ∧
    ((wm_run 2 (stamped [(5 : ℚ), 1, 5, 2])).length = min [(5 : ℚ), 1, 5, 2].length 2 ∧
     (∀ e, e ∈ wm_run 2 (stamped [(5 : ℚ), 1, 5, 2]) ↔
        e ∈ stamped [(5 : ℚ), 1, 5, 2] ∧ rank (stamped [(5 : ℚ), 1, 5, 2]) e < 2)) :=
  ⟨by decide, c5_capacity_and_retention 2 [(5 : ℚ), 1, 5, 2] (by decide)⟩

end MA
